import Mathlib

/-
Verification of the similarity-detection core of batch_consolidator.py.

The embedding models, from the source:
  * BatchProjectConsolidator.calculate_file_hash  (content normalization + digest)
  * BatchProjectConsolidator.calculate_project_hash (sorted concatenation + digest)
  * SimilarityDetector.load_database / save_database / add_project
  * SimilarityDetector.detect_similarities (copias_parciales and
    archivos_mas_copiados passes)

Modelling conventions:
  * Python str is modelled as Lean String where only comparison and
    concatenation matter, and as List Char (PyStr) where line-level
    splitting is reasoned about.
  * hashlib.sha256(...).hexdigest() is an abstract digest parameter:
    every claim here is about what is fed to the digest, not about SHA-256
    itself.
  * Python dicts are association lists in insertion order with unique keys
    (CPython dicts preserve insertion order).
  * Python set(...) values are Finsets; wherever the source iterates over a
    set (an order CPython leaves unspecified), the iteration order is an
    explicit parameter enumSet, constrained only to enumerate the set.
-/

/-- Python string viewed as a list of characters, for line-level reasoning. -/
abbrev PyStr := List Char

/-- Whitespace stripped by Python str.strip (the ASCII whitespace characters). -/
def pyIsSpace (c : Char) : Bool :=
  c = ' ' || c = '\t' || c = '\n' || c = '\r' || c = '\x0b' || c = '\x0c'

/-- Python str.strip: drop leading and trailing whitespace characters. -/
def pyStrip (s : PyStr) : PyStr :=
  ((s.dropWhile pyIsSpace).reverse.dropWhile pyIsSpace).reverse

/-- Python content.split on the newline character: a list of lines; the empty
string splits to one empty line, and separators at the ends produce empty
lines, exactly as in Python. -/
def splitNl : PyStr → List PyStr
  | [] => [[]]
  | c :: rest =>
      match splitNl rest with
      | [] => [[]]
      | h :: t => if c = '\n' then [] :: h :: t else (c :: h) :: t

/-- Python newline.join: interleave a single newline between the lines. -/
def joinNl : List PyStr → PyStr
  | [] => []
  | [l] => l
  | l :: ls => l ++ '\n' :: joinNl ls

/-- The canonical line list used by calculate_file_hash: strip every line and
keep only the lines that are non-empty after stripping. -/
def canonicalLines (ls : List PyStr) : List PyStr :=
  (ls.map pyStrip).filter (fun l => l ≠ [])

/-- The normalization step of BatchProjectConsolidator.calculate_file_hash:
lines = [line.strip() for line in content.split newline if line.strip()],
normalized = newline.join(lines). -/
def normalizeContent (content : PyStr) : PyStr :=
  joinNl (canonicalLines (splitNl content))

/-- BatchProjectConsolidator.calculate_file_hash: digest of the normalized
content; digest abstracts hashlib.sha256(utf8).hexdigest(). -/
def calculate_file_hash (digest : PyStr → String) (content : PyStr) : String :=
  digest (normalizeContent content)

/-- Python string strict comparison: code-point lexicographic order on the
character sequences. -/
def lexLt : List Char → List Char → Bool
  | [], [] => false
  | [], _ :: _ => true
  | _ :: _, [] => false
  | a :: as, b :: bs => if a < b then true else if b < a then false else lexLt as bs

/-- Python string non-strict comparison: code-point lexicographic order. -/
def lexLe : List Char → List Char → Bool
  | [], _ => true
  | _ :: _, [] => false
  | a :: as, b :: bs => if a < b then true else if b < a then false else lexLe as bs

/-- Python strict string comparison lifted to Lean strings. -/
def strLt (a b : String) : Bool := lexLt a.data b.data

/-- Python non-strict string comparison lifted to Lean strings. -/
def strLe (a b : String) : Bool := lexLe a.data b.data

/-- Python tuple comparison on (name, content) pairs, as used by
sorted(files_dict.items()): lexicographic on the pair of strings. -/
def pairLe (a b : String × String) : Bool :=
  strLt a.1 b.1 || (decide (a.1 = b.1) && strLe a.2 b.2)

/-- Comparison of the items by path (dict key) only, used to phrase the
spec's description of projectHash, which says entries are sorted by path. -/
def keyLe (a b : String × String) : Bool :=
  strLe a.1 b.1

/-- BatchProjectConsolidator.calculate_project_hash: sort the
(name, content) items, concatenate name ++ ":" ++ content over the sorted
items, and digest the concatenation. -/
def calculate_project_hash (digest : String → String)
    (files_dict : List (String × String)) : String :=
  digest (String.join ((files_dict.mergeSort pairLe).map
    (fun p => p.1 ++ ":" ++ p.2)))

/-- Modelled from the spec sentence for projectHash: sorts entries by path
(byte/lexicographic order), concatenates each as path ++ ":" ++ content in
that sorted order, and hashes the concatenation. Used to compare the
spec's phrasing (sort by path) with the code (sort by the whole item). -/
def projectHashSpec (digest : String → String)
    (files_dict : List (String × String)) : String :=
  digest (String.join ((files_dict.mergeSort keyLe).map
    (fun p => p.1 ++ ":" ++ p.2)))

/-- One project record of the hashes database, as written by
SimilarityDetector.add_project. archivos is the files dict
relative-path to file-hash, in insertion order. -/
structure ProjectRecord where
  fecha_procesado : String
  hash_proyecto : String
  archivos : List (String × String)
  total_archivos : Nat
  total_lineas : Nat
  deriving DecidableEq

/-- The hashes database (the persisted registry). proyectos is the
submitter-name to record dict, in insertion order with unique keys. -/
structure Database where
  version : String
  ultima_actualizacion : Option String
  total_proyectos : Nat
  proyectos : List (String × ProjectRecord)
  deriving DecidableEq

/-- Python dict lookup on an association list: the value at the first
matching key. -/
def dictGet {β : Type} (l : List (String × β)) (k : String) : Option β :=
  (l.find? (fun p => p.1 = k)).map Prod.snd

/-- Python dict assignment d[k] = v: replace the value at an existing key in
place, else append the new key at the end. -/
def dictInsert {β : Type} : List (String × β) → String → β → List (String × β)
  | [], k, v => [(k, v)]
  | p :: l, k, v => if p.1 = k then (k, v) :: l else p :: dictInsert l k v

/-- The three states the persisted database file can be in when
SimilarityDetector.load_database runs: missing, present but failing
json.load, or present and parsed to a database value. -/
inductive Persisted where
  | absent
  | corrupt
  | wellFormed (db : Database)

/-- The fresh empty database literal returned by load_database when no
usable persisted state exists. -/
def freshDatabase : Database :=
  { version := "1.0"
    ultima_actualizacion := none
    total_proyectos := 0
    proyectos := [] }

/-- SimilarityDetector.load_database. The Bool records whether the
recoverable warning print runs: the except branch prints it, the
missing-file path and the successful parse do not. -/
def load_database : Persisted → Database × Bool
  | .absent => (freshDatabase, false)
  | .corrupt => (freshDatabase, true)
  | .wellFormed db => (db, false)

/-- The in-memory mutation done by SimilarityDetector.save_database before
writing: stamp now as ultima_actualizacion and recompute total_proyectos
as len(proyectos). -/
def save_database_stamp (now : String) (db : Database) : Database :=
  { db with
      ultima_actualizacion := some now
      total_proyectos := db.proyectos.length }

/-- Observable persisted-file contents over the course of save_database's
write, in order: the prior file content; the empty file that exists the
moment open(path, w-mode) truncates it; and the fully written
serialization that json.dump then produces. serialize abstracts
json.dump of the database. -/
def save_database_fileStates (serialize : Database → String) (now : String)
    (oldFile : String) (db : Database) : List String :=
  [oldFile, "", serialize (save_database_stamp now db)]

/-- SimilarityDetector.add_project: assign a freshly built record into the
proyectos dict under the submitter name. -/
def add_project (db : Database) (now student_name project_hash : String)
    (file_hashes : List (String × String))
    (total_files total_lines : Nat) : Database :=
  { db with
      proyectos := dictInsert db.proyectos student_name
        { fecha_procesado := now
          hash_proyecto := project_hash
          archivos := file_hashes
          total_archivos := total_files
          total_lineas := total_lines } }

/-- Python set(files.values()): the set of distinct file-hash values of one
project's files dict. -/
def uniqueHashes (files : List (String × String)) : Finset String :=
  (files.map Prod.snd).toFinset

/-- Python round(x, 1) on the exact rational value: round to one decimal
place. The model works in exact rationals; CPython applies the same
round-to-one-decimal to a binary float. -/
def round1 (q : ℚ) : ℚ := (round (q * 10) : ℤ) / 10

/-- One element of the copias_parciales result list built by
SimilarityDetector.detect_similarities. -/
structure PartialCopyEntry where
  alumnos : String × String
  archivos_copiados : List (String × String)
  porcentaje_similitud : ℚ
  total_archivos_comunes : Nat
  deriving DecidableEq

/-- The inner loop with break of detect_similarities: scan files_a in dict
order for the first file whose hash is the given common hash, and render
it as the pair (nombre, hash truncated to 16 characters plus ellipsis). -/
def exampleFileFor (files_a : List (String × String)) (h : String) :
    Option (String × String) :=
  (files_a.find? (fun p => p.2 = h)).map
    (fun p => (p.1, (String.mk (h.data.take 16)) ++ "..."))

/-- Modelled from the spec sentence for the partial-overlap example
filename: project A's path for the shared hash chosen by first match on a
deterministic path sort. -/
def exampleFileSpec (files_a : List (String × String)) (h : String) :
    Option String :=
  ((List.insertionSort (fun p q => keyLe p q = true) files_a).find?
    (fun p => p.2 = h)).map Prod.fst

/-- The body of the pairwise loop of detect_similarities for one ordered
pair of students: None when the pair is not reported, else the reported
entry. enumSet supplies the iteration order of the Python set
common_hashes. -/
def pairEntry (enumSet : Finset String → List String)
    (student_a : String) (ra : ProjectRecord)
    (student_b : String) (rb : ProjectRecord) : Option PartialCopyEntry :=
  let hashes_a := uniqueHashes ra.archivos
  let hashes_b := uniqueHashes rb.archivos
  let common_hashes := hashes_a ∩ hashes_b
  if 3 ≤ common_hashes.card then
    if ra.hash_proyecto ≠ rb.hash_proyecto then
      let total_files_min := min hashes_a.card hashes_b.card
      let porcentaje : ℚ :=
        if 0 < total_files_min then
          (common_hashes.card : ℚ) / (total_files_min : ℚ) * 100
        else 0
      some
        { alumnos := (student_a, student_b)
          archivos_copiados :=
            (enumSet common_hashes).filterMap (exampleFileFor ra.archivos)
          porcentaje_similitud := round1 porcentaje
          total_archivos_comunes := common_hashes.card }
    else none
  else none

/-- The copias_parciales pass of detect_similarities: every ordered pair
(student at position i, student at a later position j) is considered once,
in loop order. -/
def copiasParciales (enumSet : Finset String → List String) :
    List (String × ProjectRecord) → List PartialCopyEntry
  | [] => []
  | (sa, ra) :: rest =>
      rest.filterMap (fun p => pairEntry enumSet sa ra p.1 p.2) ++
        copiasParciales enumSet rest

/-- The flattened file_hash_map contents in build order: one
(file-hash, student, file-name) triple per file of every project, projects
in registry order and files in dict order. -/
def allOccurrences (proyectos : List (String × ProjectRecord)) :
    List (String × String × String) :=
  proyectos.flatMap (fun p => p.2.archivos.map (fun a => (a.2, p.1, a.1)))

/-- file_hash_map[h]: the (student, file-name) occurrence list of one file
hash, in build order. -/
def occurrencesOf (proyectos : List (String × ProjectRecord)) (h : String) :
    List (String × String) :=
  (allOccurrences proyectos).filterMap
    (fun t => if t.1 = h then some t.2 else none)

/-- Deduplication keeping the first occurrence of each element, in first
occurrence order: the key order of a Python dict built by appending.
List.dedup keeps the last occurrence of each element, so deduplicating the
reversed list and reversing back keeps each element at its first
occurrence, in the original order. -/
def firstDedup (l : List String) : List String := (l.reverse.dedup).reverse

/-- The keys of file_hash_map in first-encounter order. -/
def hashKeys (proyectos : List (String × ProjectRecord)) : List String :=
  firstDedup ((allOccurrences proyectos).map (fun t => t.1))

/-- Python max(iterable, key=k): the first element attaining the maximal
key, an error on an empty iterable (None here). -/
def pyMaxBy (key : String → Nat) : List String → Option String
  | [] => none
  | a :: l => some (l.foldl (fun best x => if key best < key x then x else best) a)

/-- One element of the archivos_mas_copiados result list. -/
structure MostCopiedEntry where
  archivo : String
  hash : String
  aparece_en : List String
  total_copias : Nat
  deriving DecidableEq

/-- The body of the archivos_mas_copiados loop for one file hash: None when
fewer than 3 distinct students have the hash, else the reported entry.
enumSet supplies the iteration order of the Python set of file names
(and the unreachable empty-set fallback is the empty string). -/
def mostCopiedEntryFor (enumSet : Finset String → List String)
    (proyectos : List (String × ProjectRecord)) (h : String) :
    Option MostCopiedEntry :=
  let occurrences := occurrencesOf proyectos h
  let students_with_file := (occurrences.map Prod.fst).toFinset
  if 3 ≤ students_with_file.card then
    let file_names := occurrences.map Prod.snd
    let most_common_name :=
      (pyMaxBy (fun n => file_names.count n) (enumSet file_names.toFinset)).getD ""
    some
      { archivo := most_common_name
        hash := (String.mk (h.data.take 16)) ++ "..."
        aparece_en :=
          List.insertionSort (fun a b => strLe a b = true) (enumSet students_with_file)
        total_copias := students_with_file.card }
  else none

/-- Python list.sort(key usage on total_copias, reverse): stable descending
sort by total_copias. -/
def sortByCopiesDesc (l : List MostCopiedEntry) : List MostCopiedEntry :=
  l.mergeSort (fun x y => decide (y.total_copias ≤ x.total_copias))

/-- The archivos_mas_copiados pass of detect_similarities: one candidate
entry per distinct file hash in first-encounter order, kept when at least
3 distinct students share it, then sorted by total_copias descending. -/
def archivosMasCopiados (enumSet : Finset String → List String)
    (proyectos : List (String × ProjectRecord)) : List MostCopiedEntry :=
  sortByCopiesDesc ((hashKeys proyectos).filterMap (mostCopiedEntryFor enumSet proyectos))

/-- Modelled from the spec sentence for the representative filename of
archivos_mas_copiados: the most frequently occurring literal name among
all occurrences of the hash, ties broken by first-seen order. -/
def specRepresentative (proyectos : List (String × ProjectRecord))
    (h : String) : Option String :=
  let file_names := (occurrencesOf proyectos h).map Prod.snd
  pyMaxBy (fun n => file_names.count n) (firstDedup file_names)

/-- A function is a valid model of Python set iteration when it enumerates
exactly the elements of the set, each once. -/
def ValidEnum (enumSet : Finset String → List String) : Prop :=
  ∀ s : Finset String, (enumSet s).Nodup ∧ ∀ x, x ∈ enumSet s ↔ x ∈ s

/-- A concrete valid set-enumeration order, used to instantiate theorems on
concrete inputs: enumerate in sorted order. -/
def sortedEnum (s : Finset String) : List String := s.sort (· ≤ ·)

/-- A concrete set-enumeration built from a fixed candidate list: enumerate
the members of the set in candidate-list order. On any set whose elements
all occur once in the candidate list this is a faithful enumeration, and
unlike sortedEnum it evaluates by kernel reduction. -/
def listEnum (cands : List String) (s : Finset String) : List String :=
  cands.filter (fun x => decide (x ∈ s))

/-- A concrete stand-in for json.dump used to instantiate the abstract
serializer on concrete inputs; any serializer with nonempty output
exhibits the same write-protocol behaviour. -/
def serializeConst (db : Database) : String := "SERIALIZED:" ++ db.version

theorem dictGet_cons {β : Type} (p : String × β) (l : List (String × β)) (k : String) :
    dictGet (p :: l) k = if p.1 = k then some p.2 else dictGet l k := by
  by_cases h : p.1 = k <;> simp [dictGet, h]

theorem dictGet_dictInsert_self {β : Type} (l : List (String × β)) (k : String) (v : β) :
    dictGet (dictInsert l k v) k = some v := by
  induction l with
  | nil => simp [dictGet, dictInsert]
  | cons p l ih =>
      by_cases h : p.1 = k
      · simp [dictInsert, h, dictGet_cons]
      · simp [dictInsert, h, dictGet_cons, ih]

theorem dictGet_dictInsert_ne {β : Type} (l : List (String × β)) (k : String) (v : β)
    (k2 : String) (h : k2 ≠ k) : dictGet (dictInsert l k v) k2 = dictGet l k2 := by
  have hk : k ≠ k2 := fun hc => h hc.symm
  induction l with
  | nil => simp [dictGet, dictInsert, dictGet_cons, hk]
  | cons p l ih =>
      by_cases hp : p.1 = k
      · simp [dictInsert, hp, dictGet_cons, hk]
      · by_cases hp2 : p.1 = k2
        · simp only [dictInsert]
          rw [if_neg hp]
          simp [dictGet_cons, hp2]
        · simp only [dictInsert]
          rw [if_neg hp]
          simp [dictGet_cons, hp2, ih]

/-- Claim C8 counterexample: when the persisted registry is absent,
load_database returns the fresh empty registry but does not report the
recoverable warning, contradicting the claim that the warning is reported
whenever the persisted state is absent or corrupt. -/
theorem counterexampleC8_absent_no_warning :
    (load_database Persisted.absent).1 = freshDatabase ∧
      (load_database Persisted.absent).2 ≠ true := by
  constructor
  · rfl
  · decide

/-- Claim C8 (amended): loading absent persisted state returns the fresh
empty registry (version tag, null timestamp, zero count, empty mapping)
silently; loading corrupt persisted state returns the same fresh registry
and reports the recoverable warning; well-formed persisted state is
returned as stored; load_database is a total function, so no input aborts
the run. -/
theorem claimC8_load_database_recovery :
    load_database Persisted.absent = (freshDatabase, false) ∧
      load_database Persisted.corrupt = (freshDatabase, true) ∧
      (∀ db : Database, load_database (Persisted.wellFormed db) = (db, false)) ∧
      freshDatabase.version = "1.0" ∧
      freshDatabase.ultima_actualizacion = none ∧
      freshDatabase.total_proyectos = 0 ∧
      freshDatabase.proyectos = [] :=
  ⟨rfl, rfl, fun _ => rfl, rfl, rfl, rfl, rfl⟩

/-- Claim C5 counterexample: during save_database's write, the file passes
through the truncated-empty state (open in write mode truncates before
json.dump writes), a persisted state that is neither the prior registry
content nor the new serialization, so the write is not all-or-nothing. -/
theorem counterexampleC5_partial_write_state :
    ∃ s ∈ save_database_fileStates serializeConst "2025-01-01" "OLD" freshDatabase,
      s ≠ "OLD" ∧
        s ≠ serializeConst (save_database_stamp "2025-01-01" freshDatabase) := by
  refine ⟨"", ?_, ?_, ?_⟩
  · simp [save_database_fileStates]
  · decide
  · decide

/-- Claim C5 (amended): save_database stamps the supplied current time as
ultima_actualizacion and recomputes total_proyectos as the size of the
proyectos mapping, leaving the mapping and version unchanged; the write
has no error handler so a failure propagates, and the file states during
the write are the old content, the truncated empty file, and finally the
full serialization of the stamped registry, so only the final state is
the full registry. -/
theorem claimC5_save_database_stamp_and_write (serialize : Database → String)
    (now oldFile : String) (db : Database) :
    (save_database_stamp now db).ultima_actualizacion = some now ∧
      (save_database_stamp now db).total_proyectos = db.proyectos.length ∧
      (save_database_stamp now db).proyectos = db.proyectos ∧
      (save_database_stamp now db).version = db.version ∧
      save_database_fileStates serialize now oldFile db =
        [oldFile, "", serialize (save_database_stamp now db)] ∧
      (save_database_fileStates serialize now oldFile db).getLast? =
        some (serialize (save_database_stamp now db)) :=
  ⟨rfl, rfl, rfl, rfl, rfl, rfl⟩

/-- Claim C9: upserting a submitter replaces that submitter's record with
the freshly built one; re-upserting the same submitter with the same
project hash, file hashes, file count and line count yields a record with
the same hash, files and counts (only the processing timestamp field
holds the newly supplied time); and lookups of every other submitter are
unaffected by the two upserts. -/
theorem claimC9_add_project_idempotent (db : Database)
    (student now1 now2 project_hash : String)
    (file_hashes : List (String × String)) (total_files total_lines : Nat) :
    dictGet (add_project db now1 student project_hash file_hashes
        total_files total_lines).proyectos student =
      some ⟨now1, project_hash, file_hashes, total_files, total_lines⟩ ∧
    dictGet (add_project (add_project db now1 student project_hash file_hashes
        total_files total_lines) now2 student project_hash file_hashes
        total_files total_lines).proyectos student =
      some ⟨now2, project_hash, file_hashes, total_files, total_lines⟩ ∧
    ∀ other, other ≠ student →
      dictGet (add_project (add_project db now1 student project_hash file_hashes
          total_files total_lines) now2 student project_hash file_hashes
          total_files total_lines).proyectos other =
        dictGet db.proyectos other := by
  refine ⟨?_, ?_, ?_⟩
  · exact dictGet_dictInsert_self _ _ _
  · exact dictGet_dictInsert_self _ _ _
  · intro other hother
    rw [add_project, add_project]
    rw [dictGet_dictInsert_ne _ _ _ _ hother, dictGet_dictInsert_ne _ _ _ _ hother]

/-- Claim C9 witness: the two upserts evaluated on a concrete registry. -/
theorem claimC9_witness :
    dictGet (add_project freshDatabase "t1" "A" "PH" [("Main.java", "h1")] 1 10).proyectos "A" =
      some ⟨"t1", "PH", [("Main.java", "h1")], 1, 10⟩ ∧
    dictGet (add_project (add_project freshDatabase "t1" "A" "PH" [("Main.java", "h1")] 1 10)
        "t2" "A" "PH" [("Main.java", "h1")] 1 10).proyectos "A" =
      some ⟨"t2", "PH", [("Main.java", "h1")], 1, 10⟩ ∧
    dictGet (add_project (add_project freshDatabase "t1" "A" "PH" [("Main.java", "h1")] 1 10)
        "t2" "A" "PH" [("Main.java", "h1")] 1 10).proyectos "B" =
      dictGet freshDatabase.proyectos "B" := by
  obtain ⟨h1, h2, h3⟩ :=
    claimC9_add_project_idempotent freshDatabase "A" "t1" "t2" "PH"
      [("Main.java", "h1")] 1 10
  exact ⟨h1, h2, h3 "B" (by decide)⟩

theorem lexLt_cons_iff (a b : Char) (as bs : List Char) :
    lexLt (a :: as) (b :: bs) = true ↔ (a < b ∨ (a = b ∧ lexLt as bs = true)) := by
  simp only [lexLt]
  rcases lt_trichotomy a b with h | h | h
  · simp [h]
  · subst h
    simp [lt_irrefl]
  · simp [h, lt_asymm h, ne_of_gt h]

theorem lexLe_cons_iff (a b : Char) (as bs : List Char) :
    lexLe (a :: as) (b :: bs) = true ↔ (a < b ∨ (a = b ∧ lexLe as bs = true)) := by
  simp only [lexLe]
  rcases lt_trichotomy a b with h | h | h
  · simp [h]
  · subst h
    simp [lt_irrefl]
  · simp [h, lt_asymm h, ne_of_gt h]

theorem lexLe_iff : ∀ a b : List Char, lexLe a b = true ↔ (lexLt a b = true ∨ a = b)
  | [], [] => by simp [lexLe, lexLt]
  | [], _ :: _ => by simp [lexLe, lexLt]
  | _ :: _, [] => by simp [lexLe, lexLt]
  | a :: as, b :: bs => by
      rw [lexLe_cons_iff, lexLt_cons_iff]
      constructor
      · rintro (h | ⟨rfl, h⟩)
        · exact Or.inl (Or.inl h)
        · rcases (lexLe_iff as bs).mp h with h2 | rfl
          · exact Or.inl (Or.inr ⟨rfl, h2⟩)
          · exact Or.inr rfl
      · rintro ((h | ⟨rfl, h⟩) | heq)
        · exact Or.inl h
        · exact Or.inr ⟨rfl, (lexLe_iff as bs).mpr (Or.inl h)⟩
        · injection heq with h1 h2
          subst h1
          subst h2
          exact Or.inr ⟨rfl, (lexLe_iff as as).mpr (Or.inr rfl)⟩

theorem lexLt_asymm : ∀ a b : List Char, lexLt a b = true → lexLt b a = true → False
  | [], [], h1, _ => by simp [lexLt] at h1
  | [], _ :: _, _, h2 => by simp [lexLt] at h2
  | _ :: _, [], h1, _ => by simp [lexLt] at h1
  | a :: as, b :: bs, h1, h2 => by
      rcases (lexLt_cons_iff a b as bs).mp h1 with h | ⟨rfl, h⟩
      · rcases (lexLt_cons_iff b a bs as).mp h2 with h3 | ⟨heq, h3⟩
        · exact lt_asymm h h3
        · exact absurd heq (ne_of_gt h)
      · rcases (lexLt_cons_iff a a bs as).mp h2 with h3 | ⟨-, h3⟩
        · exact lt_irrefl a h3
        · exact lexLt_asymm as bs h h3

theorem lexLt_trans : ∀ a b c : List Char,
    lexLt a b = true → lexLt b c = true → lexLt a c = true
  | [], [], _, h1, _ => by simp [lexLt] at h1
  | [], _ :: _, [], _, h2 => by simp [lexLt] at h2
  | [], _ :: _, _ :: _, _, _ => by simp [lexLt]
  | _ :: _, [], _, h1, _ => by simp [lexLt] at h1
  | _ :: _, _ :: _, [], _, h2 => by simp [lexLt] at h2
  | a :: as, b :: bs, c :: cs, h1, h2 => by
      rw [lexLt_cons_iff] at h1 h2 ⊢
      rcases h1 with h1 | ⟨rfl, h1⟩ <;> rcases h2 with h2 | ⟨rfl, h2⟩
      · exact Or.inl (lt_trans h1 h2)
      · exact Or.inl h1
      · exact Or.inl h2
      · exact Or.inr ⟨rfl, lexLt_trans as bs cs h1 h2⟩

theorem bor_eq_true_iff (a b : Bool) : (a || b) = true ↔ a = true ∨ b = true := by
  simp

theorem lexLe_total : ∀ a b : List Char, (lexLe a b || lexLe b a) = true
  | [], _ => by simp [lexLe]
  | _ :: _, [] => by simp [lexLe]
  | a :: as, b :: bs => by
      rw [Bool.or_eq_true, lexLe_cons_iff, lexLe_cons_iff]
      rcases lt_trichotomy a b with h | h | h
      · exact Or.inl (Or.inl h)
      · subst h
        rcases (bor_eq_true_iff _ _).mp (lexLe_total as bs) with h2 | h2
        · exact Or.inl (Or.inr ⟨rfl, h2⟩)
        · exact Or.inr (Or.inr ⟨rfl, h2⟩)
      · exact Or.inr (Or.inl h)

theorem string_data_inj {a b : String} (h : a.data = b.data) : a = b := by
  cases a
  cases b
  exact congrArg String.mk (by simpa using h)

theorem strLe_iff (a b : String) : strLe a b = true ↔ (strLt a b = true ∨ a = b) := by
  unfold strLe strLt
  rw [lexLe_iff]
  constructor
  · rintro (h | h)
    · exact Or.inl h
    · exact Or.inr (string_data_inj h)
  · rintro (h | rfl)
    · exact Or.inl h
    · exact Or.inr rfl

theorem strLt_asymm (a b : String) : strLt a b = true → strLt b a = true → False :=
  lexLt_asymm a.data b.data

theorem strLt_irrefl (a : String) : ¬ strLt a a = true :=
  fun h => lexLt_asymm a.data a.data h h

theorem strLt_trans (a b c : String) :
    strLt a b = true → strLt b c = true → strLt a c = true :=
  lexLt_trans a.data b.data c.data

theorem strLe_total (a b : String) : (strLe a b || strLe b a) = true :=
  lexLe_total a.data b.data

theorem strLe_trans (a b c : String) :
    strLe a b = true → strLe b c = true → strLe a c = true := by
  intro h1 h2
  rcases (strLe_iff a b).mp h1 with h1 | rfl
  · rcases (strLe_iff b c).mp h2 with h2 | rfl
    · exact (strLe_iff a c).mpr (Or.inl (strLt_trans a b c h1 h2))
    · exact (strLe_iff a b).mpr (Or.inl h1)
  · exact h2

theorem strLe_antisymm (a b : String) :
    strLe a b = true → strLe b a = true → a = b := by
  intro h1 h2
  rcases (strLe_iff a b).mp h1 with h1 | rfl
  · rcases (strLe_iff b a).mp h2 with h2 | rfl
    · exact absurd h2 (fun hc => strLt_asymm a b h1 hc)
    · rfl
  · rfl

theorem strTrichotomy (a b : String) :
    strLt a b = true ∨ a = b ∨ strLt b a = true := by
  rcases (bor_eq_true_iff _ _).mp (strLe_total a b) with h | h
  · rcases (strLe_iff a b).mp h with h | rfl
    · exact Or.inl h
    · exact Or.inr (Or.inl rfl)
  · rcases (strLe_iff b a).mp h with h | rfl
    · exact Or.inr (Or.inr h)
    · exact Or.inr (Or.inl rfl)

theorem strLt_of_le_of_ne (a b : String) (h : strLe a b = true) (hne : a ≠ b) :
    strLt a b = true := by
  rcases (strLe_iff a b).mp h with h | rfl
  · exact h
  · exact absurd rfl hne

instance : IsTrans String (fun a b => strLe a b = true) :=
  ⟨fun a b c => strLe_trans a b c⟩

instance : IsAntisymm String (fun a b => strLe a b = true) :=
  ⟨fun a b => strLe_antisymm a b⟩

instance : IsTotal String (fun a b => strLe a b = true) :=
  ⟨fun a b => (bor_eq_true_iff _ _).mp (strLe_total a b)⟩

theorem pairLe_iff (a b : String × String) :
    pairLe a b = true ↔ strLt a.1 b.1 = true ∨ (a.1 = b.1 ∧ strLe a.2 b.2 = true) := by
  simp [pairLe]

theorem pairLe_trans (a b c : String × String) :
    pairLe a b = true → pairLe b c = true → pairLe a c = true := by
  intro hab hbc
  rw [pairLe_iff] at hab hbc ⊢
  rcases hab with h1 | ⟨h1, h1'⟩ <;> rcases hbc with h2 | ⟨h2, h2'⟩
  · exact Or.inl (strLt_trans _ _ _ h1 h2)
  · exact Or.inl (h2 ▸ h1)
  · exact Or.inl (h1 ▸ h2)
  · exact Or.inr ⟨h1.trans h2, strLe_trans _ _ _ h1' h2'⟩

theorem pairLe_total (a b : String × String) :
    (pairLe a b || pairLe b a) = true := by
  rw [Bool.or_eq_true, pairLe_iff, pairLe_iff]
  rcases strTrichotomy a.1 b.1 with h | h | h
  · exact Or.inl (Or.inl h)
  · rcases (bor_eq_true_iff _ _).mp (strLe_total a.2 b.2) with h2 | h2
    · exact Or.inl (Or.inr ⟨h, h2⟩)
    · exact Or.inr (Or.inr ⟨h.symm, h2⟩)
  · exact Or.inr (Or.inl h)

instance : IsAntisymm (String × String) (fun a b => pairLe a b = true) := by
  constructor
  intro a b hab hba
  rw [pairLe_iff] at hab hba
  obtain ⟨a1, a2⟩ := a
  obtain ⟨b1, b2⟩ := b
  simp only [Prod.mk.injEq]
  rcases hab with h1 | ⟨h1, h1'⟩ <;> rcases hba with h2 | ⟨h2, h2'⟩
  · exact absurd h2 (fun hc => strLt_asymm _ _ h1 hc)
  · exact absurd (h2 ▸ h1) (strLt_irrefl _)
  · exact absurd (h1 ▸ h2) (strLt_irrefl _)
  · exact ⟨h1, strLe_antisymm _ _ h1' h2'⟩

instance : IsAntisymm (String × String) (fun a b => strLt a.1 b.1 = true) := by
  constructor
  intro a b hab hba
  exact absurd hba (fun hc => strLt_asymm _ _ hab hc)

theorem keyLe_trans (a b c : String × String) :
    keyLe a b = true → keyLe b c = true → keyLe a c = true := by
  simp only [keyLe]
  exact strLe_trans _ _ _

theorem keyLe_total (a b : String × String) :
    (keyLe a b || keyLe b a) = true := by
  simp only [keyLe]
  exact strLe_total _ _

/-- Sorting the items by the full (path, content) tuple is invariant under
permutation of the input: the sorted list of a dict's items depends only
on which items there are. -/
theorem mergeSort_pairLe_perm_eq (l1 l2 : List (String × String)) (h : l1.Perm l2) :
    l1.mergeSort pairLe = l2.mergeSort pairLe :=
  List.eq_of_perm_of_sorted
    (((List.mergeSort_perm l1 pairLe).trans h).trans (List.mergeSort_perm l2 pairLe).symm)
    (List.sorted_mergeSort pairLe_trans pairLe_total l1)
    (List.sorted_mergeSort pairLe_trans pairLe_total l2)

/-- On items with pairwise-distinct paths, sorting by the full tuple (as the
code does) and sorting by the path alone (as the spec says) produce the
same list. -/
theorem mergeSort_pairLe_eq_keyLe (l : List (String × String))
    (hl : l.Pairwise (fun a b => a.1 ≠ b.1)) :
    l.mergeSort pairLe = l.mergeSort keyLe := by
  have hperm1 := List.mergeSort_perm l pairLe
  have hperm2 := List.mergeSort_perm l keyLe
  have hsym : ∀ {x y : String × String}, x.1 ≠ y.1 → y.1 ≠ x.1 := fun h => h.symm
  have hne1 : (l.mergeSort pairLe).Pairwise (fun a b => a.1 ≠ b.1) :=
    (hperm1.pairwise_iff hsym).mpr hl
  have hne2 : (l.mergeSort keyLe).Pairwise (fun a b => a.1 ≠ b.1) :=
    (hperm2.pairwise_iff hsym).mpr hl
  have hs1 := List.sorted_mergeSort pairLe_trans pairLe_total l
  have hs2 := List.sorted_mergeSort keyLe_trans keyLe_total l
  have hr1 : (l.mergeSort pairLe).Pairwise (fun a b => strLt a.1 b.1 = true) := by
    refine (hs1.and hne1).imp ?_
    intro a b hab
    rcases (pairLe_iff a b).mp hab.1 with h | ⟨h, _⟩
    · exact h
    · exact absurd h hab.2
  have hr2 : (l.mergeSort keyLe).Pairwise (fun a b => strLt a.1 b.1 = true) := by
    refine (hs2.and hne2).imp ?_
    intro a b hab
    exact strLt_of_le_of_ne _ _ (by simpa [keyLe] using hab.1) hab.2
  exact List.eq_of_perm_of_sorted (hperm1.trans hperm2.symm) hr1 hr2

/-- Claim C2: with unique paths, calculate_project_hash is the digest of the
concatenation, in path-sorted order, of path ++ ":" ++ rawContent over the
items (the spec's phrasing), and it is invariant to the iteration order in
which the (path, content) pairs are supplied. -/
theorem claimC2_project_hash_sorted_and_deterministic (digest : String → String)
    (l1 l2 : List (String × String))
    (hkeys : l1.Pairwise (fun a b => a.1 ≠ b.1)) (hperm : l1.Perm l2) :
    calculate_project_hash digest l1 = projectHashSpec digest l1 ∧
      calculate_project_hash digest l1 = calculate_project_hash digest l2 := by
  constructor
  · unfold calculate_project_hash projectHashSpec
    rw [mergeSort_pairLe_eq_keyLe l1 hkeys]
  · unfold calculate_project_hash
    rw [mergeSort_pairLe_perm_eq l1 l2 hperm]

/-- Claim C2 witness: a concrete two-file dict supplied in two orders. -/
theorem claimC2_witness :
    calculate_project_hash id [("b.java", "BBB"), ("a.java", "AAA")] =
        projectHashSpec id [("b.java", "BBB"), ("a.java", "AAA")] ∧
      calculate_project_hash id [("b.java", "BBB"), ("a.java", "AAA")] =
        calculate_project_hash id [("a.java", "AAA"), ("b.java", "BBB")] :=
  claimC2_project_hash_sorted_and_deterministic id
    [("b.java", "BBB"), ("a.java", "AAA")] [("a.java", "AAA"), ("b.java", "BBB")]
    (by decide) (by decide)

theorem splitNl_ne_nil (s : PyStr) : splitNl s ≠ [] := by
  induction s with
  | nil => simp [splitNl]
  | cons c rest ih =>
      simp only [splitNl]
      cases h : splitNl rest with
      | nil => simp
      | cons hd tl => by_cases hc : c = '\n' <;> simp [hc]

theorem splitNl_no_newline (l : PyStr) (hl : '\n' ∉ l) : splitNl l = [l] := by
  induction l with
  | nil => rfl
  | cons c rest ih =>
      have hc : c ≠ '\n' := fun h => hl (h ▸ List.mem_cons_self c rest)
      have hrest : '\n' ∉ rest := fun h => hl (List.mem_cons_of_mem c h)
      simp [splitNl, ih hrest, hc]

theorem splitNl_append_newline (l s : PyStr) (hl : '\n' ∉ l) :
    splitNl (l ++ '\n' :: s) = l :: splitNl s := by
  induction l with
  | nil =>
      cases h : splitNl s with
      | nil => exact absurd h (splitNl_ne_nil s)
      | cons hd tl => simp [splitNl, h]
  | cons c rest ih =>
      have hc : c ≠ '\n' := fun h => hl (h ▸ List.mem_cons_self c rest)
      have hrest : '\n' ∉ rest := fun h => hl (List.mem_cons_of_mem c h)
      simp only [List.cons_append, splitNl, List.append_eq]
      rw [ih hrest]
      simp [hc]

theorem splitNl_joinNl (ls : List PyStr) (h : ls ≠ [])
    (hnl : ∀ l ∈ ls, '\n' ∉ l) : splitNl (joinNl ls) = ls := by
  induction ls with
  | nil => exact absurd rfl h
  | cons l rest ih =>
      cases rest with
      | nil => exact splitNl_no_newline l (hnl l (List.mem_cons_self l []))
      | cons l2 t =>
          have hstep : joinNl (l :: l2 :: t) = l ++ '\n' :: joinNl (l2 :: t) := rfl
          rw [hstep, splitNl_append_newline l _ (hnl l (List.mem_cons_self l _))]
          rw [ih (by simp) (fun x hx => hnl x (List.mem_cons_of_mem l hx))]

theorem canonicalLines_splitNl_joinNl (ls : List PyStr)
    (hnl : ∀ l ∈ ls, '\n' ∉ l) :
    canonicalLines (splitNl (joinNl ls)) = canonicalLines ls := by
  cases h : ls with
  | nil => rfl
  | cons a t => rw [← h, splitNl_joinNl ls (by simp [h]) hnl]

theorem dropWhile_append_all (w s : PyStr) (hw : ∀ c ∈ w, pyIsSpace c = true) :
    (w ++ s).dropWhile pyIsSpace = s.dropWhile pyIsSpace := by
  induction w with
  | nil => rfl
  | cons c rest ih =>
      have hc := hw c (List.mem_cons_self c rest)
      simp only [List.cons_append, List.dropWhile_cons, hc, if_true]
      exact ih (fun x hx => hw x (List.mem_cons_of_mem c hx))

theorem pyStrip_pad (w l wr : PyStr) (hw : ∀ c ∈ w, pyIsSpace c = true)
    (hwr : ∀ c ∈ wr, pyIsSpace c = true) :
    pyStrip (w ++ l ++ wr) = pyStrip l := by
  unfold pyStrip
  rw [List.append_assoc, dropWhile_append_all w (l ++ wr) hw]
  rcases eq_or_ne (l.dropWhile pyIsSpace) [] with hnil | hne
  · have hlr : (l ++ wr).dropWhile pyIsSpace = [] := by
      rw [List.dropWhile_append, hnil]
      simp [List.dropWhile_eq_nil_iff.mpr hwr]
    rw [hlr, hnil]
  · have hlr : (l ++ wr).dropWhile pyIsSpace = l.dropWhile pyIsSpace ++ wr := by
      rw [List.dropWhile_append]
      simp [List.isEmpty_iff, hne]
    rw [hlr, List.reverse_append,
      dropWhile_append_all wr.reverse _ (fun c hc => hwr c (List.mem_reverse.mp hc))]

theorem canonicalLines_insert_blank (b : PyStr) (ls1 ls2 : List PyStr)
    (hb : pyStrip b = []) :
    canonicalLines (ls1 ++ b :: ls2) = canonicalLines (ls1 ++ ls2) := by
  simp [canonicalLines, List.filter_append, hb]

/-- Claim C3: the file hash is a function only of the canonical form of the
content (lines stripped, empty-after-strip lines discarded, rejoined with
a single newline). In particular, joining any two line lists with equal
canonical form gives contents with equal hash; stripping is insensitive
to added or removed leading/trailing whitespace on a line; and inserting
or removing a blank (empty-after-strip) line leaves the canonical form
unchanged. -/
theorem claimC3_file_hash_whitespace_insensitive :
    (∀ (digest : PyStr → String) (c1 c2 : PyStr),
        normalizeContent c1 = normalizeContent c2 →
          calculate_file_hash digest c1 = calculate_file_hash digest c2) ∧
    (∀ (digest : PyStr → String) (ls1 ls2 : List PyStr),
        (∀ l ∈ ls1, '\n' ∉ l) → (∀ l ∈ ls2, '\n' ∉ l) →
          canonicalLines ls1 = canonicalLines ls2 →
            calculate_file_hash digest (joinNl ls1) =
              calculate_file_hash digest (joinNl ls2)) ∧
    (∀ (w l wr : PyStr),
        (∀ c ∈ w, pyIsSpace c = true) → (∀ c ∈ wr, pyIsSpace c = true) →
          pyStrip (w ++ l ++ wr) = pyStrip l) ∧
    (∀ (b : PyStr) (ls1 ls2 : List PyStr), pyStrip b = [] →
        canonicalLines (ls1 ++ b :: ls2) = canonicalLines (ls1 ++ ls2)) := by
  refine ⟨?_, ?_, pyStrip_pad, canonicalLines_insert_blank⟩
  · intro digest c1 c2 h
    unfold calculate_file_hash
    rw [h]
  · intro digest ls1 ls2 h1 h2 hcanon
    unfold calculate_file_hash normalizeContent
    rw [canonicalLines_splitNl_joinNl ls1 h1, canonicalLines_splitNl_joinNl ls2 h2,
      hcanon]

/-- Claim C3 witness: the lines p and qr, against the same lines with added
leading/trailing whitespace and an inserted blank line, hash identically. -/
theorem claimC3_witness :
    calculate_file_hash (fun l => String.mk l) (joinNl [['p'], ['q', 'r']]) =
      calculate_file_hash (fun l => String.mk l)
        (joinNl [[' ', 'p', ' '], [' '], ['q', 'r', ' ']]) :=
  claimC3_file_hash_whitespace_insensitive.2.1 (fun l => String.mk l)
    [['p'], ['q', 'r']] [[' ', 'p', ' '], [' '], ['q', 'r', ' ']]
    (by decide) (by decide) (by decide)

/-- Entries of the copias_parciales list are exactly the successful
pairEntry results over the ordered pairs (earlier student, later student)
of the registry list. -/
theorem mem_copiasParciales (enumSet : Finset String → List String)
    (reg : List (String × ProjectRecord)) (e : PartialCopyEntry) :
    e ∈ copiasParciales enumSet reg ↔
      ∃ l1 sa ra l2 sb rb l3,
        reg = l1 ++ (sa, ra) :: l2 ++ (sb, rb) :: l3 ∧
          pairEntry enumSet sa ra sb rb = some e := by
  induction reg with
  | nil =>
      simp only [copiasParciales, List.not_mem_nil, false_iff]
      rintro ⟨l1, sa, ra, l2, sb, rb, l3, heq, -⟩
      cases l1 <;> simp at heq
  | cons p rest ih =>
      obtain ⟨s0, r0⟩ := p
      constructor
      · intro hmem
        rw [copiasParciales] at hmem
        rcases List.mem_append.mp hmem with hleft | hright
        · obtain ⟨q, hq, hpe⟩ := List.mem_filterMap.mp hleft
          obtain ⟨l2, l3, rfl⟩ := List.append_of_mem hq
          exact ⟨[], s0, r0, l2, q.1, q.2, l3, by simp, hpe⟩
        · obtain ⟨l1, sa, ra, l2, sb, rb, l3, heq, hpe⟩ := ih.mp hright
          exact ⟨(s0, r0) :: l1, sa, ra, l2, sb, rb, l3, by simp [heq], hpe⟩
      · rintro ⟨l1, sa, ra, l2, sb, rb, l3, heq, hpe⟩
        rw [copiasParciales]
        apply List.mem_append.mpr
        cases l1 with
        | nil =>
            simp only [List.nil_append, List.cons.injEq, Prod.mk.injEq] at heq
            obtain ⟨⟨rfl, rfl⟩, rfl⟩ := heq
            exact Or.inl (List.mem_filterMap.mpr
              ⟨(sb, rb), List.mem_append_right _ (List.mem_cons_self _ _), hpe⟩)
        | cons p1 l1t =>
            simp only [List.cons_append, List.cons.injEq] at heq
            obtain ⟨rfl, hrest⟩ := heq
            exact Or.inr (ih.mpr ⟨l1t, sa, ra, l2, sb, rb, l3, hrest, hpe⟩)

/-- Characterization of the pairwise loop body: the pair produces an entry
exactly when the common unique-hash set has at least 3 elements and the
project hashes differ, and then the entry's fields are as built in the
source. -/
theorem pairEntry_eq_some_iff (enumSet : Finset String → List String)
    (sa : String) (ra : ProjectRecord) (sb : String) (rb : ProjectRecord)
    (e : PartialCopyEntry) :
    pairEntry enumSet sa ra sb rb = some e ↔
      3 ≤ ((uniqueHashes ra.archivos) ∩ (uniqueHashes rb.archivos)).card ∧
        ra.hash_proyecto ≠ rb.hash_proyecto ∧
        e = { alumnos := (sa, sb)
              archivos_copiados :=
                (enumSet ((uniqueHashes ra.archivos) ∩ (uniqueHashes rb.archivos))).filterMap
                  (exampleFileFor ra.archivos)
              porcentaje_similitud :=
                round1
                  (if 0 < min (uniqueHashes ra.archivos).card (uniqueHashes rb.archivos).card
                    then (((uniqueHashes ra.archivos) ∩ (uniqueHashes rb.archivos)).card : ℚ) /
                        ((min (uniqueHashes ra.archivos).card (uniqueHashes rb.archivos).card : ℕ) : ℚ) *
                        100
                    else 0)
              total_archivos_comunes :=
                ((uniqueHashes ra.archivos) ∩ (uniqueHashes rb.archivos)).card } := by
  unfold pairEntry
  by_cases h3 : 3 ≤ ((uniqueHashes ra.archivos) ∩ (uniqueHashes rb.archivos)).card
  · by_cases hh : ra.hash_proyecto = rb.hash_proyecto
    · simp [h3, hh]
    · simp [h3, hh, eq_comm]
  · simp [h3]

/-- The common unique-hash set is a subset of each side, so its size is at
most the smaller of the two unique-hash counts. -/
theorem common_card_le_min (A B : Finset String) :
    (A ∩ B).card ≤ min A.card B.card :=
  le_min (Finset.card_le_card Finset.inter_subset_left)
    (Finset.card_le_card Finset.inter_subset_right)

/-- Rounding to one decimal keeps a value of [0, 100] inside [0, 100]. -/
theorem round1_bounds (q : ℚ) (h0 : 0 ≤ q) (h100 : q ≤ 100) :
    0 ≤ round1 q ∧ round1 q ≤ 100 := by
  unfold round1
  have hlow : (0 : ℤ) ≤ round (q * 10) := by
    rw [round_eq]
    exact Int.floor_nonneg.mpr (by linarith)
  have hfloor : ⌊(1000 : ℚ) + 1 / 2⌋ = 1000 := by
    rw [Int.floor_eq_iff]
    constructor <;> norm_num
  have hhigh : round (q * 10) ≤ 1000 := by
    rw [round_eq]
    calc ⌊q * 10 + 1 / 2⌋ ≤ ⌊(1000 : ℚ) + 1 / 2⌋ := Int.floor_le_floor (by linarith)
      _ = 1000 := hfloor
  constructor
  · apply div_nonneg _ (by norm_num)
    exact_mod_cast hlow
  · rw [div_le_iff (by norm_num : (0 : ℚ) < 10)]
    calc ((round (q * 10) : ℤ) : ℚ) ≤ ((1000 : ℤ) : ℚ) := by exact_mod_cast hhigh
      _ = 100 * 10 := by norm_num

/-- Claim C10: whenever the similarity division of the partial-overlap pass
is evaluated (so the pair has at least 3 common unique hashes), both
unique-hash sets have at least 3 elements, hence the min denominator is
at least 3 and so positive, and the zero-denominator guard of the source
is dead: the guarded expression equals the unguarded division. -/
theorem claimC10_zero_denominator_guard_dead
    (files_a files_b : List (String × String))
    (h3 : 3 ≤ ((uniqueHashes files_a) ∩ (uniqueHashes files_b)).card) :
    3 ≤ min (uniqueHashes files_a).card (uniqueHashes files_b).card ∧
      0 < min (uniqueHashes files_a).card (uniqueHashes files_b).card ∧
      (if 0 < min (uniqueHashes files_a).card (uniqueHashes files_b).card then
          (((uniqueHashes files_a) ∩ (uniqueHashes files_b)).card : ℚ) /
            ((min (uniqueHashes files_a).card (uniqueHashes files_b).card : ℕ) : ℚ) * 100
        else 0) =
        (((uniqueHashes files_a) ∩ (uniqueHashes files_b)).card : ℚ) /
          ((min (uniqueHashes files_a).card (uniqueHashes files_b).card : ℕ) : ℚ) * 100 := by
  have hmin : 3 ≤ min (uniqueHashes files_a).card (uniqueHashes files_b).card :=
    le_trans h3 (common_card_le_min _ _)
  have hpos : 0 < min (uniqueHashes files_a).card (uniqueHashes files_b).card :=
    lt_of_lt_of_le (by norm_num) hmin
  exact ⟨hmin, hpos, if_pos hpos⟩

/-- Claim C10 witness: the division guard evaluated on the spec's example
pair of projects. -/
theorem claimC10_witness :
    3 ≤ min (uniqueHashes [("Main.java", "x"), ("Util.java", "y"), ("Helper.java", "z")]).card
        (uniqueHashes [("Main.java", "x"), ("Util.java", "y"), ("Helper2.java", "z"), ("Other.java", "w")]).card ∧
      0 < min (uniqueHashes [("Main.java", "x"), ("Util.java", "y"), ("Helper.java", "z")]).card
        (uniqueHashes [("Main.java", "x"), ("Util.java", "y"), ("Helper2.java", "z"), ("Other.java", "w")]).card ∧
      (if 0 < min (uniqueHashes [("Main.java", "x"), ("Util.java", "y"), ("Helper.java", "z")]).card
          (uniqueHashes [("Main.java", "x"), ("Util.java", "y"), ("Helper2.java", "z"), ("Other.java", "w")]).card then
          (((uniqueHashes [("Main.java", "x"), ("Util.java", "y"), ("Helper.java", "z")]) ∩
            (uniqueHashes [("Main.java", "x"), ("Util.java", "y"), ("Helper2.java", "z"), ("Other.java", "w")])).card : ℚ) /
            ((min (uniqueHashes [("Main.java", "x"), ("Util.java", "y"), ("Helper.java", "z")]).card
              (uniqueHashes [("Main.java", "x"), ("Util.java", "y"), ("Helper2.java", "z"), ("Other.java", "w")]).card : ℕ) : ℚ) * 100
        else 0) =
        (((uniqueHashes [("Main.java", "x"), ("Util.java", "y"), ("Helper.java", "z")]) ∩
          (uniqueHashes [("Main.java", "x"), ("Util.java", "y"), ("Helper2.java", "z"), ("Other.java", "w")])).card : ℚ) /
          ((min (uniqueHashes [("Main.java", "x"), ("Util.java", "y"), ("Helper.java", "z")]).card
            (uniqueHashes [("Main.java", "x"), ("Util.java", "y"), ("Helper2.java", "z"), ("Other.java", "w")]).card : ℕ) : ℚ) * 100 :=
  claimC10_zero_denominator_guard_dead
    [("Main.java", "x"), ("Util.java", "y"), ("Helper.java", "z")]
    [("Main.java", "x"), ("Util.java", "y"), ("Helper2.java", "z"), ("Other.java", "w")]
    (by decide)

theorem mem_two_split {α : Type} (l : List α) (a b : α) (ha : a ∈ l) (hb : b ∈ l)
    (hne : a ≠ b) :
    (∃ l1 l2 l3, l = l1 ++ a :: l2 ++ b :: l3) ∨
      (∃ l1 l2 l3, l = l1 ++ b :: l2 ++ a :: l3) := by
  induction l with
  | nil => cases ha
  | cons x t ih =>
      rcases List.mem_cons.mp ha with rfl | hat
      · have hbt : b ∈ t := by
          rcases List.mem_cons.mp hb with h | h
          · exact absurd h.symm hne
          · exact h
        obtain ⟨l2, l3, rfl⟩ := List.append_of_mem hbt
        exact Or.inl ⟨[], l2, l3, rfl⟩
      · rcases List.mem_cons.mp hb with rfl | hbt
        · obtain ⟨l2, l3, rfl⟩ := List.append_of_mem hat
          exact Or.inr ⟨[], l2, l3, rfl⟩
        · rcases ih hat hbt with ⟨l1, l2, l3, rfl⟩ | ⟨l1, l2, l3, rfl⟩
          · exact Or.inl ⟨x :: l1, l2, l3, rfl⟩
          · exact Or.inr ⟨x :: l1, l2, l3, rfl⟩

theorem dictGet_eq_some_iff_mem {β : Type} (l : List (String × β)) (k : String) (v : β) :
    (l.map Prod.fst).Nodup → (dictGet l k = some v ↔ (k, v) ∈ l) := by
  induction l with
  | nil => intro _; simp [dictGet]
  | cons p t ih =>
      intro hk
      rw [List.map_cons, List.nodup_cons] at hk
      obtain ⟨hnotin, hk2⟩ := hk
      by_cases h : p.1 = k
      · subst h
        rw [dictGet_cons, if_pos rfl]
        constructor
        · intro hv
          have hv2 : v = p.2 := by
            injection hv with h2
            exact h2.symm
          subst hv2
          rw [Prod.mk.eta]
          exact List.mem_cons_self _ _
        · intro hmem
          rcases List.mem_cons.mp hmem with heq | hmt
          · rw [← heq]
          · exact absurd (List.mem_map.mpr ⟨(p.1, v), hmt, rfl⟩) hnotin
      · rw [dictGet_cons, if_neg h, ih hk2]
        constructor
        · exact fun hm => List.mem_cons_of_mem _ hm
        · intro hmem
          rcases List.mem_cons.mp hmem with heq | hmt
          · exact absurd (congrArg Prod.fst heq).symm h
          · exact hmt

/-- Claim C1: every entry of the copias_parciales list carries a similarity
percentage in [0, 100], and that percentage is exactly
round-to-one-decimal of common over min of the two unique-hash counts
times 100, computed over the two member projects' unique file-hash sets. -/
theorem claimC1_similarity_formula_and_bounds
    (enumSet : Finset String → List String)
    (reg : List (String × ProjectRecord))
    (hkeys : (reg.map Prod.fst).Nodup)
    (e : PartialCopyEntry) (he : e ∈ copiasParciales enumSet reg) :
    0 ≤ e.porcentaje_similitud ∧ e.porcentaje_similitud ≤ 100 ∧
      ∃ sa ra sb rb, (sa, ra) ∈ reg ∧ (sb, rb) ∈ reg ∧ sa ≠ sb ∧
        e.alumnos = (sa, sb) ∧
        e.porcentaje_similitud =
          round1 ((((uniqueHashes ra.archivos) ∩ (uniqueHashes rb.archivos)).card : ℚ) /
            ((min (uniqueHashes ra.archivos).card (uniqueHashes rb.archivos).card : ℕ) : ℚ) *
            100) := by
  obtain ⟨l1, sa, ra, l2, sb, rb, l3, heq, hpe⟩ := (mem_copiasParciales enumSet reg e).mp he
  obtain ⟨h3, hh, rfl⟩ := (pairEntry_eq_some_iff enumSet sa ra sb rb e).mp hpe
  subst heq
  have hmin3 : 3 ≤ min (uniqueHashes ra.archivos).card (uniqueHashes rb.archivos).card :=
    le_trans h3 (common_card_le_min _ _)
  have hposN : 0 < min (uniqueHashes ra.archivos).card (uniqueHashes rb.archivos).card :=
    lt_of_lt_of_le (by norm_num) hmin3
  have hposQ : (0 : ℚ) <
      ((min (uniqueHashes ra.archivos).card (uniqueHashes rb.archivos).card : ℕ) : ℚ) := by
    exact_mod_cast hposN
  have hq0 : 0 ≤
      (((uniqueHashes ra.archivos) ∩ (uniqueHashes rb.archivos)).card : ℚ) /
        ((min (uniqueHashes ra.archivos).card (uniqueHashes rb.archivos).card : ℕ) : ℚ) * 100 := by
    positivity
  have hq100 :
      (((uniqueHashes ra.archivos) ∩ (uniqueHashes rb.archivos)).card : ℚ) /
        ((min (uniqueHashes ra.archivos).card (uniqueHashes rb.archivos).card : ℕ) : ℚ) * 100 ≤
        100 := by
    have h1 : (((uniqueHashes ra.archivos) ∩ (uniqueHashes rb.archivos)).card : ℚ) /
        ((min (uniqueHashes ra.archivos).card (uniqueHashes rb.archivos).card : ℕ) : ℚ) ≤ 1 := by
      rw [div_le_one hposQ]
      exact_mod_cast common_card_le_min (uniqueHashes ra.archivos) (uniqueHashes rb.archivos)
    calc (((uniqueHashes ra.archivos) ∩ (uniqueHashes rb.archivos)).card : ℚ) /
          ((min (uniqueHashes ra.archivos).card (uniqueHashes rb.archivos).card : ℕ) : ℚ) * 100 ≤
          1 * 100 := mul_le_mul_of_nonneg_right h1 (by norm_num)
      _ = 100 := by norm_num
  have hfield :
      round1 (if 0 < min (uniqueHashes ra.archivos).card (uniqueHashes rb.archivos).card
          then (((uniqueHashes ra.archivos) ∩ (uniqueHashes rb.archivos)).card : ℚ) /
              ((min (uniqueHashes ra.archivos).card (uniqueHashes rb.archivos).card : ℕ) : ℚ) * 100
          else 0) =
        round1 ((((uniqueHashes ra.archivos) ∩ (uniqueHashes rb.archivos)).card : ℚ) /
          ((min (uniqueHashes ra.archivos).card (uniqueHashes rb.archivos).card : ℕ) : ℚ) * 100) := by
    rw [if_pos hposN]
  obtain ⟨hb0, hb100⟩ := round1_bounds _ hq0 hq100
  have hsane : sa ≠ sb := by
    have hsub : List.Sublist [sa, sb]
        ((l1 ++ (sa, ra) :: l2 ++ (sb, rb) :: l3).map Prod.fst) := by
      simp only [List.map_append, List.map_cons]
      have h1 : List.Sublist [sa] (l1.map Prod.fst ++ sa :: l2.map Prod.fst) :=
        List.Sublist.trans (List.cons_sublist_cons.mpr (List.nil_sublist _))
          (List.sublist_append_right (l1.map Prod.fst) (sa :: l2.map Prod.fst))
      have h2 : List.Sublist [sb] (sb :: l3.map Prod.fst) :=
        List.cons_sublist_cons.mpr (List.nil_sublist _)
      exact List.Sublist.append h1 h2
    have hnd : ([sa, sb] : List String).Nodup := List.Nodup.sublist hsub hkeys
    simpa using (List.nodup_cons.mp hnd).1
  refine ⟨?_, ?_, sa, ra, sb, rb, by simp, by simp, hsane, rfl, ?_⟩
  · exact hfield.symm ▸ hb0
  · exact hfield.symm ▸ hb100
  · exact hfield

/-- Claim C4: a pair of distinct submitters is reported in copias_parciales
(in either orientation) exactly when their unique file-hash sets share at
least 3 elements and their project hashes differ. -/
theorem claimC4_threshold_and_identical_exclusion
    (enumSet : Finset String → List String)
    (reg : List (String × ProjectRecord))
    (hkeys : (reg.map Prod.fst).Nodup)
    (sa sb : String) (ra rb : ProjectRecord)
    (ha : dictGet reg sa = some ra) (hb : dictGet reg sb = some rb)
    (hne : sa ≠ sb) :
    (∃ e ∈ copiasParciales enumSet reg, e.alumnos = (sa, sb) ∨ e.alumnos = (sb, sa)) ↔
      (3 ≤ ((uniqueHashes ra.archivos) ∩ (uniqueHashes rb.archivos)).card ∧
        ra.hash_proyecto ≠ rb.hash_proyecto) := by
  constructor
  · rintro ⟨e, he, hal⟩
    obtain ⟨l1, sx, rx, l2, sy, ry, l3, heq, hpe⟩ :=
      (mem_copiasParciales enumSet reg e).mp he
    obtain ⟨h3, hh, rfl⟩ := (pairEntry_eq_some_iff enumSet sx rx sy ry e).mp hpe
    have hmx : (sx, rx) ∈ reg := by rw [heq]; simp
    have hmy : (sy, ry) ∈ reg := by rw [heq]; simp
    have hgx : dictGet reg sx = some rx :=
      ((dictGet_eq_some_iff_mem reg sx rx) hkeys).mpr hmx
    have hgy : dictGet reg sy = some ry :=
      ((dictGet_eq_some_iff_mem reg sy ry) hkeys).mpr hmy
    rcases hal with hal | hal
    · obtain ⟨h1, h2⟩ : sx = sa ∧ sy = sb := by simpa [Prod.ext_iff] using hal
      subst h1
      subst h2
      obtain rfl : rx = ra := Option.some.inj (hgx.symm.trans ha)
      obtain rfl : ry = rb := Option.some.inj (hgy.symm.trans hb)
      exact ⟨h3, hh⟩
    · obtain ⟨h1, h2⟩ : sx = sb ∧ sy = sa := by simpa [Prod.ext_iff] using hal
      subst h1
      subst h2
      obtain rfl : rx = rb := Option.some.inj (hgx.symm.trans hb)
      obtain rfl : ry = ra := Option.some.inj (hgy.symm.trans ha)
      rw [Finset.inter_comm] at h3
      exact ⟨h3, hh.symm⟩
  · rintro ⟨h3, hh⟩
    have hma : (sa, ra) ∈ reg := ((dictGet_eq_some_iff_mem reg sa ra) hkeys).mp ha
    have hmb : (sb, rb) ∈ reg := ((dictGet_eq_some_iff_mem reg sb rb) hkeys).mp hb
    have hpairne : (sa, ra) ≠ (sb, rb) := fun hcon => hne (congrArg Prod.fst hcon)
    rcases mem_two_split reg (sa, ra) (sb, rb) hma hmb hpairne with
      ⟨l1, l2, l3, heq⟩ | ⟨l1, l2, l3, heq⟩
    · exact ⟨_, (mem_copiasParciales enumSet reg _).mpr
        ⟨l1, sa, ra, l2, sb, rb, l3, heq,
          (pairEntry_eq_some_iff enumSet sa ra sb rb _).mpr ⟨h3, hh, rfl⟩⟩, Or.inl rfl⟩
    · refine ⟨_, (mem_copiasParciales enumSet reg _).mpr
        ⟨l1, sb, rb, l2, sa, ra, l3, heq,
          (pairEntry_eq_some_iff enumSet sb rb sa ra _).mpr ⟨?_, hh.symm, rfl⟩⟩, Or.inr rfl⟩
      rwa [Finset.inter_comm]

/-- The spec section-8 example: project A with three files, project B
sharing the three file hashes and owning one extra file. -/
def recW_A : ProjectRecord :=
  { fecha_procesado := "t"
    hash_proyecto := "PA"
    archivos := [("Main.java", "x"), ("Util.java", "y"), ("Helper.java", "z")]
    total_archivos := 3
    total_lineas := 0 }

/-- The second project of the spec section-8 example. -/
def recW_B : ProjectRecord :=
  { fecha_procesado := "t"
    hash_proyecto := "PB"
    archivos := [("Main.java", "x"), ("Util.java", "y"), ("Helper2.java", "z"), ("Other.java", "w")]
    total_archivos := 4
    total_lineas := 0 }

/-- A concrete registry holding the two example projects. -/
def regW : List (String × ProjectRecord) := [("A", recW_A), ("B", recW_B)]

/-- The concrete set-enumeration order used on the example registry. -/
def enumW : Finset String → List String := listEnum ["x", "y", "z", "w"]

/-- The partial-copy entry the detector produces for the example registry,
written exactly as the pairEntry characterization builds it. -/
def entryW : PartialCopyEntry :=
  { alumnos := ("A", "B")
    archivos_copiados :=
      (enumW ((uniqueHashes recW_A.archivos) ∩ (uniqueHashes recW_B.archivos))).filterMap
        (exampleFileFor recW_A.archivos)
    porcentaje_similitud :=
      round1
        (if 0 < min (uniqueHashes recW_A.archivos).card (uniqueHashes recW_B.archivos).card
          then (((uniqueHashes recW_A.archivos) ∩ (uniqueHashes recW_B.archivos)).card : ℚ) /
              ((min (uniqueHashes recW_A.archivos).card (uniqueHashes recW_B.archivos).card : ℕ) : ℚ) *
              100
          else 0)
    total_archivos_comunes :=
      ((uniqueHashes recW_A.archivos) ∩ (uniqueHashes recW_B.archivos)).card }

/-- The example entry really is reported for the example registry. -/
theorem entryW_mem : entryW ∈ copiasParciales enumW regW :=
  (mem_copiasParciales enumW regW entryW).mpr
    ⟨[], "A", recW_A, [], "B", recW_B, [], rfl,
      (pairEntry_eq_some_iff enumW "A" recW_A "B" recW_B entryW).mpr
        ⟨by decide, by decide, rfl⟩⟩

/-- Claim C1 witness: the bound obtained on the example registry's entry. -/
theorem claimC1_witness :
    0 ≤ entryW.porcentaje_similitud ∧ entryW.porcentaje_similitud ≤ 100 := by
  obtain ⟨h1, h2, -⟩ :=
    claimC1_similarity_formula_and_bounds enumW regW (by decide) entryW entryW_mem
  exact ⟨h1, h2⟩

/-- Claim C4 witness: the example pair is reported, so by the
characterization its common unique-hash count is at least 3 and its
project hashes differ. -/
theorem claimC4_witness :
    3 ≤ ((uniqueHashes recW_A.archivos) ∩ (uniqueHashes recW_B.archivos)).card ∧
      recW_A.hash_proyecto ≠ recW_B.hash_proyecto :=
  (claimC4_threshold_and_identical_exclusion enumW regW (by decide)
      "A" "B" recW_A recW_B (by decide) (by decide) (by decide)).mp
    ⟨entryW, entryW_mem, Or.inl rfl⟩

/-- Claim C6 (amended): the example filename reported for a shared hash is
project A's first-stored match (dict insertion order); when A's stored
file list is sorted by path, as this pipeline stores it (files are
scanned in sorted order before insertion), this coincides with the first
match on a deterministic path sort, and as a pure function of the stored
registry the choice is deterministic across re-runs. -/
theorem claimC6_example_first_match_on_sorted
    (files_a : List (String × String)) (h : String)
    (hsorted : files_a.Pairwise (fun p q => keyLe p q = true)) :
    (exampleFileFor files_a h).map Prod.fst = exampleFileSpec files_a h := by
  unfold exampleFileFor exampleFileSpec
  rw [List.Sorted.insertionSort_eq hsorted]
  cases hf : files_a.find? (fun p => p.2 = h) with
  | none => simp [hf]
  | some p => simp [hf]

/-- Claim C6 witness: the coincidence evaluated on a concrete sorted file
list. -/
theorem claimC6_witness :
    (exampleFileFor [("a.java", "h1"), ("b.java", "h2")] "h2").map Prod.fst =
      exampleFileSpec [("a.java", "h1"), ("b.java", "h2")] "h2" :=
  claimC6_example_first_match_on_sorted [("a.java", "h1"), ("b.java", "h2")] "h2"
    (by decide)

/-- A project whose stored file dict is not in path-sorted order: two paths
share the hash h1, with the later-sorted path stored first. -/
def recC6A : ProjectRecord :=
  { fecha_procesado := "t"
    hash_proyecto := "PA"
    archivos := [("b.java", "h1"), ("a.java", "h1"), ("c.java", "h2"), ("d.java", "h3")]
    total_archivos := 4
    total_lineas := 0 }

/-- The partner project sharing the three hashes of recC6A. -/
def recC6B : ProjectRecord :=
  { fecha_procesado := "t"
    hash_proyecto := "PB"
    archivos := [("x.java", "h1"), ("y.java", "h2"), ("z.java", "h3")]
    total_archivos := 3
    total_lineas := 0 }

/-- The registry holding the two projects of the C6 counterexample. -/
def regC6 : List (String × ProjectRecord) := [("A", recC6A), ("B", recC6B)]

/-- The concrete set-enumeration order used on the C6 registry. -/
def enumC6 : Finset String → List String := listEnum ["h1", "h2", "h3"]

/-- Claim C6 counterexample: on a registry whose file dict for project A is
not path-sorted, the reported example for the shared hash h1 is b.java,
the first match in stored (insertion) order, whereas the first match on a
deterministic path sort is a.java — so the claim's description of the
choice is wrong for the code as a function of arbitrary registry
contents. -/
theorem counterexampleC6_insertion_order_not_path_sorted :
    (copiasParciales enumC6 regC6).map (fun e => e.archivos_copiados) =
        [[("b.java", "h1..."), ("c.java", "h2..."), ("d.java", "h3...")]] ∧
      (copiasParciales enumC6 regC6).map (fun e => e.alumnos) = [("A", "B")] ∧
      exampleFileSpec recC6A.archivos "h1" = some "a.java" ∧
      ("b.java" : String) ≠ "a.java" :=
  ⟨by decide, by decide, by decide, by decide⟩

theorem mem_firstDedup (l : List String) (x : String) :
    x ∈ firstDedup l ↔ x ∈ l := by
  simp [firstDedup]

theorem pyMax_foldl_spec (key : String → Nat) :
    ∀ (t : List String) (a : String),
      t.foldl (fun best x => if key best < key x then x else best) a ∈ a :: t ∧
        key a ≤ key (t.foldl (fun best x => if key best < key x then x else best) a) ∧
        ∀ x ∈ t, key x ≤ key (t.foldl (fun best x => if key best < key x then x else best) a)
  | [], a => by
      refine ⟨List.mem_cons_self a [], le_refl _, ?_⟩
      intro x hx
      cases hx
  | x :: t, a => by
      simp only [List.foldl_cons]
      obtain ⟨hmem, hle, hall⟩ :=
        pyMax_foldl_spec key t (if key a < key x then x else a)
      have hstep : key a ≤ key (if key a < key x then x else a) := by
        by_cases hc : key a < key x
        · rw [if_pos hc]
          exact le_of_lt hc
        · rw [if_neg hc]
      have hxle : key x ≤ key (if key a < key x then x else a) := by
        by_cases hc : key a < key x
        · rw [if_pos hc]
        · rw [if_neg hc]
          exact le_of_not_lt hc
      refine ⟨?_, le_trans hstep hle, ?_⟩
      · rcases List.mem_cons.mp hmem with heq | hmt
        · by_cases hc : key a < key x
          · rw [if_pos hc] at heq ⊢
            rw [heq]
            exact List.mem_cons_of_mem a (List.mem_cons_self x t)
          · rw [if_neg hc] at heq ⊢
            rw [heq]
            exact List.mem_cons_self a (x :: t)
        · exact List.mem_cons_of_mem a (List.mem_cons_of_mem x hmt)
      · intro y hy
        rcases List.mem_cons.mp hy with rfl | hyt
        · exact le_trans hxle hle
        · exact hall y hyt

/-- Python max with a key returns an element of the list attaining the
maximal key. -/
theorem pyMaxBy_spec (key : String → Nat) (l : List String) (hl : l ≠ []) :
    ∃ m, pyMaxBy key l = some m ∧ m ∈ l ∧ ∀ x ∈ l, key x ≤ key m := by
  cases l with
  | nil => exact absurd rfl hl
  | cons a t =>
      obtain ⟨hmem, hle, hall⟩ := pyMax_foldl_spec key t a
      refine ⟨_, rfl, hmem, ?_⟩
      intro x hx
      rcases List.mem_cons.mp hx with rfl | hxt
      · exact hle
      · exact hall x hxt

/-- Characterization of the archivos_mas_copiados loop body. -/
theorem mostCopiedEntryFor_eq_some_iff (enumSet : Finset String → List String)
    (proyectos : List (String × ProjectRecord)) (h : String) (e : MostCopiedEntry) :
    mostCopiedEntryFor enumSet proyectos h = some e ↔
      3 ≤ ((occurrencesOf proyectos h).map Prod.fst).toFinset.card ∧
        e = { archivo :=
                (pyMaxBy (fun n => ((occurrencesOf proyectos h).map Prod.snd).count n)
                  (enumSet ((occurrencesOf proyectos h).map Prod.snd).toFinset)).getD ""
              hash := (String.mk (h.data.take 16)) ++ "..."
              aparece_en :=
                List.insertionSort (fun a b => strLe a b = true)
                  (enumSet ((occurrencesOf proyectos h).map Prod.fst).toFinset)
              total_copias := ((occurrencesOf proyectos h).map Prod.fst).toFinset.card } := by
  simp only [mostCopiedEntryFor]
  by_cases h3 : 3 ≤ ((occurrencesOf proyectos h).map Prod.fst).toFinset.card
  · rw [if_pos h3]
    constructor
    · intro he
      exact ⟨h3, (Option.some.inj he).symm⟩
    · rintro ⟨-, rfl⟩
      rfl
  · rw [if_neg h3]
    constructor
    · intro he
      cases he
    · rintro ⟨hcon, -⟩
      exact absurd hcon h3

theorem validEnum_sortedEnum : ValidEnum sortedEnum := by
  intro s
  exact ⟨Finset.sort_nodup _ s, fun x => Finset.mem_sort _⟩

/-- Claim C7 (amended): a file hash yields an entry exactly when at least 3
distinct submitters' projects contain it; the entry's submitter list is
the sorted deduplicated submitter list with its count; the representative
filename is a literal name of maximal occurrence count among the
occurrences of the hash, with ties broken by the unspecified iteration
order of the Python name set (first maximal in that order), not
necessarily by first-seen order; a hash occurs as a candidate key exactly
when it occurs in the registry; and the final list is the descending
stable sort by count of the per-hash entries. -/
theorem claimC7_most_copied_characterization
    (enumSet : Finset String → List String) (henum : ValidEnum enumSet)
    (reg : List (String × ProjectRecord)) (h : String) :
    ((mostCopiedEntryFor enumSet reg h).isSome = true ↔
        3 ≤ ((occurrencesOf reg h).map Prod.fst).toFinset.card) ∧
      (∀ e, mostCopiedEntryFor enumSet reg h = some e →
        e.total_copias = ((occurrencesOf reg h).map Prod.fst).toFinset.card ∧
          e.aparece_en.Pairwise (fun a b => strLe a b = true) ∧
          (∀ s, s ∈ e.aparece_en ↔ s ∈ (occurrencesOf reg h).map Prod.fst) ∧
          e.aparece_en.Nodup ∧
          e.archivo ∈ (occurrencesOf reg h).map Prod.snd ∧
          (∀ n ∈ (occurrencesOf reg h).map Prod.snd,
            ((occurrencesOf reg h).map Prod.snd).count n ≤
              ((occurrencesOf reg h).map Prod.snd).count e.archivo)) ∧
      (h ∈ hashKeys reg ↔ ∃ p ∈ reg, ∃ a ∈ p.2.archivos, a.2 = h) ∧
      (archivosMasCopiados enumSet reg).Pairwise
        (fun x y => y.total_copias ≤ x.total_copias) ∧
      (archivosMasCopiados enumSet reg).Perm
        ((hashKeys reg).filterMap (mostCopiedEntryFor enumSet reg)) := by
  have hdesc_trans : ∀ a b c : MostCopiedEntry,
      decide (b.total_copias ≤ a.total_copias) = true →
        decide (c.total_copias ≤ b.total_copias) = true →
          decide (c.total_copias ≤ a.total_copias) = true := by
    intro a b c h1 h2
    simp only [decide_eq_true_eq] at h1 h2 ⊢
    exact le_trans h2 h1
  have hdesc_total : ∀ a b : MostCopiedEntry,
      (decide (b.total_copias ≤ a.total_copias) ||
        decide (a.total_copias ≤ b.total_copias)) = true := by
    intro a b
    simp only [Bool.or_eq_true, decide_eq_true_eq]
    exact (le_total b.total_copias a.total_copias)
  refine ⟨?_, ?_, ?_, ?_, ?_⟩
  · constructor
    · intro hs
      obtain ⟨e, he⟩ := Option.isSome_iff_exists.mp hs
      exact ((mostCopiedEntryFor_eq_some_iff enumSet reg h e).mp he).1
    · intro h3
      rw [(mostCopiedEntryFor_eq_some_iff enumSet reg h _).mpr ⟨h3, rfl⟩]
      rfl
  · intro e he
    obtain ⟨h3, rfl⟩ := (mostCopiedEntryFor_eq_some_iff enumSet reg h e).mp he
    have hperm := List.perm_insertionSort (fun a b => strLe a b = true)
      (enumSet ((occurrencesOf reg h).map Prod.fst).toFinset)
    refine ⟨rfl, ?_, ?_, ?_, ?_⟩
    · exact List.sorted_insertionSort (fun a b => strLe a b = true) _
    · intro s
      rw [hperm.mem_iff, (henum _).2 s, List.mem_toFinset]
    · exact hperm.nodup_iff.mpr (henum _).1
    · have hocc : (occurrencesOf reg h).map Prod.fst ≠ [] := by
        intro hnil
        rw [hnil] at h3
        simp at h3
      have hnames : (occurrencesOf reg h).map Prod.snd ≠ [] := by
        intro hnil
        apply hocc
        simp only [List.map_eq_nil_iff] at hnil ⊢
        exact hnil
      have hne : enumSet ((occurrencesOf reg h).map Prod.snd).toFinset ≠ [] := by
        obtain ⟨x, hx⟩ := (List.toFinset_nonempty_iff _).mpr hnames
        intro hnil
        have := ((henum _).2 x).mpr hx
        rw [hnil] at this
        cases this
      obtain ⟨m, hm, hmem, hmax⟩ :=
        pyMaxBy_spec (fun n => ((occurrencesOf reg h).map Prod.snd).count n) _ hne
      rw [hm]
      have hmnames : m ∈ (occurrencesOf reg h).map Prod.snd :=
        List.mem_toFinset.mp (((henum _).2 m).mp hmem)
      refine ⟨hmnames, ?_⟩
      intro n hn
      exact hmax n (((henum _).2 n).mpr (List.mem_toFinset.mpr hn))
  · constructor
    · intro hmem
      rw [hashKeys, mem_firstDedup] at hmem
      obtain ⟨t, ht, heq⟩ := List.mem_map.mp hmem
      obtain ⟨p, hp, ht2⟩ := List.mem_flatMap.mp ht
      obtain ⟨a, ha, rfl⟩ := List.mem_map.mp ht2
      exact ⟨p, hp, a, ha, heq⟩
    · rintro ⟨p, hp, a, ha, rfl⟩
      rw [hashKeys, mem_firstDedup]
      exact List.mem_map.mpr
        ⟨(a.2, p.1, a.1), List.mem_flatMap.mpr ⟨p, hp, List.mem_map.mpr ⟨a, ha, rfl⟩⟩, rfl⟩
  · refine (List.sorted_mergeSort hdesc_trans hdesc_total _).imp ?_
    intro a b hab
    simpa using hab
  · exact List.mergeSort_perm _ _

/-- Claim C7 witness: the characterization instantiated on a concrete
registry and enumeration order. -/
theorem claimC7_witness :
    (mostCopiedEntryFor sortedEnum
        [("S1", { fecha_procesado := "t", hash_proyecto := "P1",
                  archivos := [("b.java", "h")], total_archivos := 1, total_lineas := 0 }),
         ("S2", { fecha_procesado := "t", hash_proyecto := "P2",
                  archivos := [("a.java", "h")], total_archivos := 1, total_lineas := 0 }),
         ("S3", { fecha_procesado := "t", hash_proyecto := "P3",
                  archivos := [("a.java", "h"), ("b.java", "h")], total_archivos := 2,
                  total_lineas := 0 })] "h").isSome = true :=
  (claimC7_most_copied_characterization sortedEnum validEnum_sortedEnum _ "h").1.mpr
    (by decide)

/-- First C7 project: the shared hash h stored under the name b.java. -/
def recC7A : ProjectRecord :=
  { fecha_procesado := "t"
    hash_proyecto := "P1"
    archivos := [("b.java", "h")]
    total_archivos := 1
    total_lineas := 0 }

/-- Second C7 project: the shared hash h stored under the name a.java. -/
def recC7B : ProjectRecord :=
  { fecha_procesado := "t"
    hash_proyecto := "P2"
    archivos := [("a.java", "h")]
    total_archivos := 1
    total_lineas := 0 }

/-- Third C7 project: the shared hash h stored under both names, producing a
tie between the literal names a.java and b.java (two occurrences each). -/
def recC7C : ProjectRecord :=
  { fecha_procesado := "t"
    hash_proyecto := "P3"
    archivos := [("a.java", "h"), ("b.java", "h")]
    total_archivos := 2
    total_lineas := 0 }

/-- The registry holding the three projects of the C7 counterexample. -/
def regC7 : List (String × ProjectRecord) := [("S1", recC7A), ("S2", recC7B), ("S3", recC7C)]

/-- A concrete admissible iteration order of the Python name set on the C7
registry: it enumerates exactly the two names, each once, but not in
first-seen order. -/
def enumC7 : Finset String → List String := listEnum ["a.java", "b.java"]

/-- Claim C7 counterexample: with a count tie between the names b.java
(first seen) and a.java, the code's representative — Python max over the
set of names — depends on the set's unspecified iteration order: under
the admissible enumeration enumC7 the entry reports a.java, while the
claim's first-seen tie-break demands b.java. -/
theorem counterexampleC7_tie_not_first_seen :
    (mostCopiedEntryFor enumC7 regC7 "h").map (fun e => e.archivo) = some "a.java" ∧
      specRepresentative regC7 "h" = some "b.java" ∧
      enumC7 (((occurrencesOf regC7 "h").map Prod.snd).toFinset) = ["a.java", "b.java"] ∧
      firstDedup ((occurrencesOf regC7 "h").map Prod.snd) = ["b.java", "a.java"] ∧
      ("a.java" : String) ≠ "b.java" :=
  ⟨by decide, by decide, by decide, by decide, by decide⟩
